import Mathlib

/-!
Verification of the docx-to-written-content conversion pipeline of the
file-utilities repository (module file_utilities/tools/docx_to_written_content.py).
The Python functions are shallowly embedded as executable Lean definitions over
lists of characters and paragraph records; Python str.strip, str.lower,
substring containment and pathlib suffix extraction are modelled explicitly.
-/

namespace FileUtilities

/-- Model of the Python whitespace test used by str.strip (ASCII whitespace). -/
def isSpaceCh (c : Char) : Bool := c.isWhitespace

/-- Model of Python str.strip on a character list: drop whitespace at both ends. -/
def stripChars (l : List Char) : List Char :=
  ((l.dropWhile isSpaceCh).reverse.dropWhile isSpaceCh).reverse

/-- Model of Python str.strip. -/
def pyStrip (s : String) : String := String.mk (stripChars s.toList)

/-- Model of Python str.lower (character-wise lowering). -/
def pyLower (s : String) : String := String.mk (s.toList.map Char.toLower)

/-- Tests whether the first list is an initial segment of the second. -/
def headMatches : List Char → List Char → Bool
  | [], _ => true
  | _ :: _, [] => false
  | a :: as, b :: bs => a == b && headMatches as bs

/-- Model of the Python substring test (needle in hay). -/
def containsSub (needle : List Char) : List Char → Bool
  | [] => headMatches needle []
  | c :: t => headMatches needle (c :: t) || containsSub needle t

/-- Model of the Python empty-separator string join, as used by join on a list. -/
def concatAll : List String → String
  | [] => ""
  | s :: t => s ++ concatAll t

/-- Model of Python sep.join over a list of strings. -/
def joinWith (sep : String) : List String → String
  | [] => ""
  | [s] => s
  | s :: t => s ++ sep ++ joinWith sep t

/-- Text run extracted from the document: text with bold and italic flags,
mirroring the run dictionaries produced by DocxFile.load_basic_content. -/
structure Run where
  text : String
  bold : Bool
  italic : Bool
deriving Repr, DecidableEq

/-- Paragraph record mirroring the dictionaries produced by
DocxFile.load_basic_content: alignment string, list of runs, raw text and the
is_empty flag. -/
structure Paragraph where
  alignment : String
  runs : List Run
  text : String
  is_empty : Bool
deriving Repr, DecidableEq

/-- Consume exactly n decimal digits from the front of the list, returning the
remainder, or none when fewer digits are available. -/
def takeDigits : Nat → List Char → Option (List Char)
  | 0, l => some l
  | _ + 1, [] => none
  | n + 1, c :: l => if c.isDigit then takeDigits n l else none

/-- Consume a single dash from the front of the list. -/
def expectDash : List Char → Option (List Char)
  | [] => none
  | c :: t => if c = '-' then some t else none

/-- Attempt to match the date regex with concrete repetition counts k1, k2, k3
for the three digit groups, anchored at the front of the list. -/
def matchDateFrom (k1 k2 k3 : Nat) (l : List Char) : Bool :=
  match takeDigits k1 l with
  | none => false
  | some l1 =>
    match expectDash l1 with
    | none => false
    | some l2 =>
      match takeDigits k2 l2 with
      | none => false
      | some l3 =>
        match expectDash l3 with
        | none => false
        | some l4 => (takeDigits k3 l4).isSome

/-- Anchored match of the date pattern at the front of the list: one or two
digits, a dash, one or two digits, a dash, two to four digits. -/
def matchDateAt (l : List Char) : Bool :=
  [1, 2].any fun k1 => [1, 2].any fun k2 => [2, 3, 4].any fun k3 =>
    matchDateFrom k1 k2 k3 l

/-- Unanchored search for the date pattern, trying every start position, as
re.search does for this pattern. -/
def dateSearch : List Char → Bool
  | [] => false
  | c :: t => matchDateAt (c :: t) || dateSearch t

/-- Model of re.search with the date pattern of _strip_content_before_date. -/
def hasDateMatch (s : String) : Bool := dateSearch s.toList

/-- Specification-level statement that a string contains a substring matching
the date pattern of the spec: some position is followed by one or two digits,
a dash, one or two digits, a dash and two to four digits. -/
def DateMatch (s : String) : Prop :=
  ∃ u d1 d2 d3 v : List Char,
    s.toList = u ++ d1 ++ '-' :: (d2 ++ '-' :: (d3 ++ v))
    ∧ 1 ≤ d1.length ∧ d1.length ≤ 2 ∧ (∀ c ∈ d1, c.isDigit = true)
    ∧ 1 ≤ d2.length ∧ d2.length ≤ 2 ∧ (∀ c ∈ d2, c.isDigit = true)
    ∧ 2 ≤ d3.length ∧ d3.length ≤ 4 ∧ (∀ c ∈ d3, c.isDigit = true)

/-- Scanning loop of _strip_content_before_date: returns the paragraphs after
the first non-empty paragraph whose text matches the date pattern, or none. -/
def stripFind : List Paragraph → Option (List Paragraph)
  | [] => none
  | p :: rest =>
    if !p.is_empty && hasDateMatch p.text then some rest else stripFind rest

/-- Embedding of _strip_content_before_date: drop everything up to and
including the first non-empty paragraph matching the date pattern, and return
the input unchanged when there is no such paragraph. -/
def strip_content_before_date (content : List Paragraph) : List Paragraph :=
  match stripFind content with
  | some rest => rest
  | none => content

/-- Detection loop of _group_consecutive_paragraphs: true when some interior
paragraph is empty while both immediate neighbours are non-empty. -/
def hasSeparatingEmpty : List Paragraph → Bool
  | a :: b :: c :: t =>
      (!a.is_empty && b.is_empty && !c.is_empty) || hasSeparatingEmpty (b :: c :: t)
  | _ => false

/-- Line-break marker run inserted between grouped paragraphs, exactly as the
code builds it: text with a trailing newline, bold and italic false. -/
def breakRun : Run := { text := "<br></br>\n", bold := false, italic := false }

/-- Whitespace-trim the text of a run, as done for runs of every grouped
paragraph after the first. -/
def stripRun (r : Run) : Run := { r with text := pyStrip r.text }

/-- Runs contributed by the members of a group after its first member: a break
marker followed by the trimmed runs of each member, in order. -/
def tailGroupRuns : List Paragraph → List Run
  | [] => []
  | q :: t => (breakRun :: q.runs.map stripRun) ++ tailGroupRuns t

/-- Grouping loop of _group_consecutive_paragraphs: skip empty paragraphs,
then collect each maximal block of consecutive non-empty paragraphs into one
paragraph whose runs are the runs of the first member followed by the runs of
the remaining members with break markers, whose text joins the member texts
with a space, whose alignment comes from the first member and which is never
empty. -/
def groupLoop : List Paragraph → List Paragraph
  | [] => []
  | p :: rest =>
    if p.is_empty then groupLoop rest
    else
      { alignment := p.alignment
        runs := p.runs ++ tailGroupRuns (rest.takeWhile fun q => !q.is_empty)
        text := joinWith " "
          ((p :: rest.takeWhile fun q => !q.is_empty).map Paragraph.text)
        is_empty := false } :: groupLoop (rest.dropWhile fun q => !q.is_empty)
termination_by l => l.length
decreasing_by
  · simp only [List.length_cons]; omega
  · exact Nat.lt_of_le_of_lt (List.dropWhile_sublist _).length_le
      (by simp only [List.length_cons]; omega)

/-- Embedding of _group_consecutive_paragraphs: the loop runs only when the
detection step found a separating empty paragraph, else the input is returned
unchanged. -/
def group_consecutive_paragraphs (content : List Paragraph) : List Paragraph :=
  if hasSeparatingEmpty content then groupLoop content else content

/-- Embedding of _get_paragraph_font_style: over the runs with non-empty
trimmed text, bold when all are bold, else italic when all are italic, else
normal; normal as well when no run has non-empty trimmed text. -/
def get_paragraph_font_style (runs : List Run) : String :=
  let non_empty_runs := runs.filter fun r => !(pyStrip r.text == "")
  if non_empty_runs.isEmpty then "normal"
  else
    let all_bold := non_empty_runs.all fun r => r.bold
    let all_italic := non_empty_runs.all fun r => r.italic
    if all_bold then "bold" else if all_italic then "italic" else "normal"

/-- Character class of the ampersand replacement. -/
def isAmpCh (c : Char) : Bool := c == '&'

/-- Character class of the double-quote replacement: straight and smart double
quotes. -/
def isDquoteCh (c : Char) : Bool :=
  c == '“' || c == '”' || c == Char.ofNat 34

/-- Character class of the apostrophe replacement: smart single quotes,
backtick and straight apostrophe. -/
def isSquoteCh (c : Char) : Bool :=
  c == '‘' || c == '’' || c == Char.ofNat 96 || c == Char.ofNat 39

/-- Character class of the non-breaking-space replacement. -/
def isNbspCh (c : Char) : Bool := c == '\u00A0'

/-- Character class of the en-dash replacement. -/
def isNdashCh (c : Char) : Bool := c == '–'

/-- Character class of the em-dash replacement. -/
def isMdashCh (c : Char) : Bool := c == '—'

/-- Character class of the copyright-sign replacement. -/
def isCopyCh (c : Char) : Bool := c == '©'

/-- Character class of the registered-sign replacement. -/
def isRegCh (c : Char) : Bool := c == '®'

/-- Character class of the trademark-sign replacement. -/
def isTradeCh (c : Char) : Bool := c == '™'

/-- Character class of the degree-sign replacement. -/
def isDegCh (c : Char) : Bool := c == '°'

/-- Character-wise substitution: replace every character of the class by the
replacement list, as str.replace and re.sub do for one-character patterns. -/
def substChar (p : Char → Bool) (rep : List Char) : List Char → List Char
  | [] => []
  | c :: l => (if p c then rep else [c]) ++ substChar p rep l

/-- Embedding of _normalize_symbols on a character list: the ten substitutions
of the code applied in source order, ampersand first. -/
def normalize_list (l : List Char) : List Char :=
  let l := substChar isAmpCh "&amp;".toList l
  let l := substChar isDquoteCh "&quot;".toList l
  let l := substChar isSquoteCh "&apos;".toList l
  let l := substChar isNbspCh "&nbsp;".toList l
  let l := substChar isNdashCh "&ndash;".toList l
  let l := substChar isMdashCh "&mdash;".toList l
  let l := substChar isCopyCh "&copy;".toList l
  let l := substChar isRegCh "&reg;".toList l
  let l := substChar isTradeCh "&trade;".toList l
  substChar isDegCh "&deg;".toList l

/-- Embedding of _normalize_symbols. -/
def normalize_symbols (s : String) : String := String.mk (normalize_list s.toList)

/-- Specification-level escaping table: the entity a single character is
rendered as, all other characters mapping to themselves. -/
def charEntity (c : Char) : List Char :=
  if isAmpCh c then "&amp;".toList
  else if isDquoteCh c then "&quot;".toList
  else if isSquoteCh c then "&apos;".toList
  else if isNbspCh c then "&nbsp;".toList
  else if isNdashCh c then "&ndash;".toList
  else if isMdashCh c then "&mdash;".toList
  else if isCopyCh c then "&copy;".toList
  else if isRegCh c then "&reg;".toList
  else if isTradeCh c then "&trade;".toList
  else if isDegCh c then "&deg;".toList
  else [c]

/-- Single left-to-right pass expanding every character through the escaping
table. -/
def entityExpand : List Char → List Char
  | [] => []
  | c :: l => charEntity c ++ entityExpand l

/-- Processed run of _process_paragraph_text: normalized text together with
the two per-run formatting flags. -/
structure PRun where
  text : String
  needs_italic : Bool
  needs_bold : Bool
deriving Repr, DecidableEq

/-- First loop body of _process_paragraph_text: normalize the run text and
compute needs_italic and needs_bold from the paragraph style. -/
def toPRun (paragraph_font_style : String) (r : Run) : PRun :=
  { text := normalize_symbols r.text
    needs_italic := r.italic && !(paragraph_font_style == "italic")
    needs_bold := r.bold && !(paragraph_font_style == "bold") }

/-- Comparison of the merge loop: the candidate run has the same needs flags
as the run that started the current group. -/
def sameFlags (q r : PRun) : Bool :=
  q.needs_italic == r.needs_italic && q.needs_bold == r.needs_bold

/-- Wrapping step of the merge loop: italic wrapper applied first when needed,
bold wrapper outermost when needed. -/
def wrapFlags (needs_italic needs_bold : Bool) (t : String) : String :=
  let t := if needs_italic then "<em>" ++ t ++ "</em>" else t
  if needs_bold then "<b>" ++ t ++ "</b>" else t

/-- Merge loop of _process_paragraph_text: a run whose text is exactly the
break marker without newline is emitted alone; otherwise consecutive runs
with the same needs flags are concatenated into one group, which is wrapped
according to the flags of the run that started it. -/
def mergeParts : List PRun → List String
  | [] => []
  | r :: rest =>
    if r.text == "<br></br>" then r.text :: mergeParts rest
    else
      wrapFlags r.needs_italic r.needs_bold
        (r.text ++ concatAll ((rest.takeWhile fun q => sameFlags q r).map PRun.text))
        :: mergeParts (rest.dropWhile fun q => sameFlags q r)
termination_by l => l.length
decreasing_by
  · simp only [List.length_cons]; omega
  · exact Nat.lt_of_le_of_lt (List.dropWhile_sublist _).length_le
      (by simp only [List.length_cons]; omega)

/-- Embedding of _process_paragraph_text: resolve the paragraph style, process
every run, merge consecutive runs with equal flags and join the parts. -/
def process_paragraph_text (runs : List Run) : String :=
  concatAll (mergeParts (runs.map (toPRun (get_paragraph_font_style runs))))

/-- Specification-level chunking: maximal blocks of adjacent processed runs
sharing identical needs flags. -/
def chunkFlags : List PRun → List (List PRun)
  | [] => []
  | r :: rest =>
      (r :: rest.takeWhile fun q => sameFlags q r)
        :: chunkFlags (rest.dropWhile fun q => sameFlags q r)
termination_by l => l.length
decreasing_by
  exact Nat.lt_of_le_of_lt (List.dropWhile_sublist _).length_le
    (by simp only [List.length_cons]; omega)

/-- Specification-level rendering of one chunk: the concatenated texts of its
members wrapped by exactly one tag pair per needed style of its first member. -/
def wrapChunk : List PRun → String
  | [] => ""
  | r :: t => wrapFlags r.needs_italic r.needs_bold (concatAll ((r :: t).map PRun.text))

/-- Specification-level block decomposition of a paragraph list: the maximal
blocks of consecutive non-empty paragraphs, in input order, empty paragraphs
acting only as separators. -/
def splitBlocks : List Paragraph → List (List Paragraph)
  | [] => []
  | p :: rest =>
    if p.is_empty then splitBlocks rest
    else (p :: rest.takeWhile fun q => !q.is_empty)
           :: splitBlocks (rest.dropWhile fun q => !q.is_empty)
termination_by l => l.length
decreasing_by
  · simp only [List.length_cons]; omega
  · exact Nat.lt_of_le_of_lt (List.dropWhile_sublist _).length_le
      (by simp only [List.length_cons]; omega)

/-- Specification-level merge of one block: alignment of the first member,
runs of the first member followed by a break marker and the trimmed runs of
each later member, texts joined with a space, never empty. -/
def mergeBlock : List Paragraph → Paragraph
  | [] => { alignment := "left", runs := [], text := "", is_empty := false }
  | p :: t =>
      { alignment := p.alignment
        runs := p.runs ++ tailGroupRuns t
        text := joinWith " " ((p :: t).map Paragraph.text)
        is_empty := false }

/-- Specification-level list of consecutive paragraph triples of a document,
used to express the absence of separator-pattern empty paragraphs. -/
def triples : List Paragraph → List (Paragraph × Paragraph × Paragraph)
  | a :: b :: c :: t => (a, b, c) :: triples (b :: c :: t)
  | _ => []

/-- Contiguous-substring relation on strings. -/
def IsSubstr (needle hay : String) : Prop :=
  ∃ u v : String, hay = u ++ needle ++ v

/-- Runs considered by paragraph style resolution: those whose trimmed text is
non-empty. -/
def nonEmptyRuns (runs : List Run) : List Run :=
  runs.filter fun r => !(pyStrip r.text == "")

/-- Angle-bracket character test used to express that normalization leaves
literal angle brackets untouched. -/
def angleCh (c : Char) : Bool := c == '<' || c == '>'

/-- The double-quote character as a one-character string, used to build
concrete scenario inputs. -/
def dq : String := String.mk [Char.ofNat 34]

/-- Last component of a path string: the part after the final slash, ignoring
empty components, as pathlib computes the name. -/
def splitSlash : List Char → List (List Char)
  | [] => [[]]
  | c :: t =>
    if c == '/' then [] :: splitSlash t
    else
      match splitSlash t with
      | [] => [[c]]
      | h :: r => (c :: h) :: r

/-- Model of pathlib Path(...).name for forward-slash paths. -/
def pathName (s : String) : String :=
  String.mk (((splitSlash s.toList).filter fun c => !c.isEmpty).getLastD [])

/-- Index of the last dot of the list, when any. -/
def rfindDot : List Char → Option Nat
  | [] => none
  | c :: t =>
    match rfindDot t with
    | some i => some (i + 1)
    | none => if c == '.' then some 0 else none

/-- Model of pathlib Path(...).suffix: the final-component substring from its
last dot, empty when the dot is leading, trailing or absent. -/
def pathSuffix (s : String) : String :=
  let n := (pathName s).toList
  match rfindDot n with
  | some i => if 0 < i ∧ i < n.length - 1 then String.mk (n.drop i) else ""
  | none => ""

/-- Output-path validation of convert_docx_to_written_content: the path is
rejected when the lowercased suffix does not contain .txt as a substring. -/
def invalidOutputPath (p : String) : Bool :=
  !containsSub ".txt".toList (pyLower (pathSuffix p)).toList

/-- Observable stages of convert_docx_to_written_content, in the order the
code performs them. -/
inductive ConvEvent where
  | readInput
  | stripStage
  | groupStage
  | invalidOutputError
  | renderStage
  | writeOutput
deriving Repr, DecidableEq

/-- Control-flow model of convert_docx_to_written_content: the document is
read and converted to paragraph records, the preamble is stripped and the
paragraphs grouped, then the output path is validated, raising ValueError on
mismatch, and only afterwards are the non-empty paragraphs rendered and the
output written. The trace lists the stages reached in order; the second
component holds the rendered paragraph bodies, or none when the conversion
raised. The fixed JSX wrapper text around the bodies is not modelled. -/
def convert_docx_pipeline (doc : List Paragraph) (output_path : Option String) :
    List ConvEvent × Option (List String) :=
  let content := group_consecutive_paragraphs (strip_content_before_date doc)
  let loaded := [ConvEvent.readInput, ConvEvent.stripStage, ConvEvent.groupStage]
  let bad := match output_path with
             | some p => invalidOutputPath p
             | none => false
  if bad then (loaded ++ [ConvEvent.invalidOutputError], none)
  else
    (loaded ++ [ConvEvent.renderStage, ConvEvent.writeOutput],
     some (((content.filter fun q => !q.is_empty).map fun q =>
       process_paragraph_text q.runs)))

theorem substChar_append (p : Char → Bool) (rep l1 l2 : List Char) :
    substChar p rep (l1 ++ l2) = substChar p rep l1 ++ substChar p rep l2 := by
  induction l1 with
  | nil => rfl
  | cons c t ih => simp [substChar, ih]

theorem normalize_list_append (l1 l2 : List Char) :
    normalize_list (l1 ++ l2) = normalize_list l1 ++ normalize_list l2 := by
  simp [normalize_list, substChar_append]

theorem normalize_list_single (c : Char) : normalize_list [c] = charEntity c := by
  by_cases h1 : c = '&'
  · subst h1; decide
  by_cases h2 : c = '“'
  · subst h2; decide
  by_cases h3 : c = '”'
  · subst h3; decide
  by_cases h4 : c = Char.ofNat 34
  · subst h4; decide
  by_cases h5 : c = '‘'
  · subst h5; decide
  by_cases h6 : c = '’'
  · subst h6; decide
  by_cases h7 : c = Char.ofNat 96
  · subst h7; decide
  by_cases h8 : c = Char.ofNat 39
  · subst h8; decide
  by_cases h9 : c = '\u00A0'
  · subst h9; decide
  by_cases h10 : c = '–'
  · subst h10; decide
  by_cases h11 : c = '—'
  · subst h11; decide
  by_cases h12 : c = '©'
  · subst h12; decide
  by_cases h13 : c = '®'
  · subst h13; decide
  by_cases h14 : c = '™'
  · subst h14; decide
  by_cases h15 : c = '°'
  · subst h15; decide
  simp [normalize_list, substChar, charEntity, isAmpCh, isDquoteCh, isSquoteCh,
    isNbspCh, isNdashCh, isMdashCh, isCopyCh, isRegCh, isTradeCh, isDegCh,
    h1, h2, h3, h4, h5, h6, h7, h8, h9, h10, h11, h12, h13, h14, h15]

theorem normalize_list_eq_entityExpand (l : List Char) :
    normalize_list l = entityExpand l := by
  induction l with
  | nil => rfl
  | cons c t ih =>
      have : c :: t = [c] ++ t := rfl
      rw [this, normalize_list_append, normalize_list_single, ih]
      rfl

theorem normalize_symbols_data (s : String) :
    (normalize_symbols s).data = entityExpand s.data :=
  normalize_list_eq_entityExpand s.data

theorem str_ext {a b : String} (h : a.data = b.data) : a = b := by
  cases a; cases b; exact congrArg String.mk h

theorem entityExpand_id_of {l : List Char} (h : ∀ c ∈ l, charEntity c = [c]) :
    entityExpand l = l := by
  induction l with
  | nil => rfl
  | cons c t ih =>
      simp [entityExpand, h c (by simp)]
      exact ih fun x hx => h x (by simp [hx])

theorem charEntity_cases (c : Char) :
    charEntity c = [c]
    ∨ c ∈ ['&', '“', '”', Char.ofNat 34, '‘', '’', Char.ofNat 96, Char.ofNat 39,
        '\u00A0', '–', '—', '©', '®', '™', '°'] := by
  by_cases h1 : c = '&'
  · subst h1; right; decide
  by_cases h2 : c = '“'
  · subst h2; right; decide
  by_cases h3 : c = '”'
  · subst h3; right; decide
  by_cases h4 : c = Char.ofNat 34
  · subst h4; right; decide
  by_cases h5 : c = '‘'
  · subst h5; right; decide
  by_cases h6 : c = '’'
  · subst h6; right; decide
  by_cases h7 : c = Char.ofNat 96
  · subst h7; right; decide
  by_cases h8 : c = Char.ofNat 39
  · subst h8; right; decide
  by_cases h9 : c = '\u00A0'
  · subst h9; right; decide
  by_cases h10 : c = '–'
  · subst h10; right; decide
  by_cases h11 : c = '—'
  · subst h11; right; decide
  by_cases h12 : c = '©'
  · subst h12; right; decide
  by_cases h13 : c = '®'
  · subst h13; right; decide
  by_cases h14 : c = '™'
  · subst h14; right; decide
  by_cases h15 : c = '°'
  · subst h15; right; decide
  left
  simp [charEntity, isAmpCh, isDquoteCh, isSquoteCh, isNbspCh, isNdashCh,
    isMdashCh, isCopyCh, isRegCh, isTradeCh, isDegCh,
    h1, h2, h3, h4, h5, h6, h7, h8, h9, h10, h11, h12, h13, h14, h15]

theorem charEntity_amp_of_ne {c : Char} (h : charEntity c ≠ [c]) :
    '&' ∈ charEntity c := by
  rcases charEntity_cases c with he | hm
  · exact absurd he h
  · simp only [List.mem_cons, List.not_mem_nil, or_false] at hm
    rcases hm with rfl | rfl | rfl | rfl | rfl | rfl | rfl | rfl | rfl | rfl |
      rfl | rfl | rfl | rfl | rfl <;> decide

theorem one_le_len_charEntity (c : Char) : 1 ≤ (charEntity c).length := by
  rcases charEntity_cases c with he | hm
  · rw [he]; simp
  · simp only [List.mem_cons, List.not_mem_nil, or_false] at hm
    rcases hm with rfl | rfl | rfl | rfl | rfl | rfl | rfl | rfl | rfl | rfl |
      rfl | rfl | rfl | rfl | rfl <;> decide

theorem len_le_entityExpand (l : List Char) : l.length ≤ (entityExpand l).length := by
  induction l with
  | nil => simp [entityExpand]
  | cons c t ih =>
      have := one_le_len_charEntity c
      simp only [entityExpand, List.length_append, List.length_cons]
      omega

theorem mem_entityExpand_of {l : List Char} {c x : Char} (hc : c ∈ l)
    (hx : x ∈ charEntity c) : x ∈ entityExpand l := by
  induction l with
  | nil => cases hc
  | cons a t ih =>
      rcases List.mem_cons.mp hc with h | h
      · subst h; exact List.mem_append.mpr (Or.inl hx)
      · exact List.mem_append.mpr (Or.inr (ih h))

theorem len_lt_entityExpand_of_amp {l : List Char} (h : '&' ∈ l) :
    l.length < (entityExpand l).length := by
  induction l with
  | nil => cases h
  | cons c t ih =>
      rcases List.mem_cons.mp h with hc | hc
      · have h5 : (charEntity '&').length = 5 := by decide
        have := len_le_entityExpand t
        subst hc
        simp only [entityExpand, List.length_append, List.length_cons]
        omega
      · have h1 := one_le_len_charEntity c
        have := ih hc
        simp only [entityExpand, List.length_append, List.length_cons]
        omega

theorem filter_angle_charEntity (c : Char) :
    (charEntity c).filter angleCh = [c].filter angleCh := by
  by_cases h1 : c = '&'
  · subst h1; decide
  by_cases h2 : c = '“'
  · subst h2; decide
  by_cases h3 : c = '”'
  · subst h3; decide
  by_cases h4 : c = Char.ofNat 34
  · subst h4; decide
  by_cases h5 : c = '‘'
  · subst h5; decide
  by_cases h6 : c = '’'
  · subst h6; decide
  by_cases h7 : c = Char.ofNat 96
  · subst h7; decide
  by_cases h8 : c = Char.ofNat 39
  · subst h8; decide
  by_cases h9 : c = '\u00A0'
  · subst h9; decide
  by_cases h10 : c = '–'
  · subst h10; decide
  by_cases h11 : c = '—'
  · subst h11; decide
  by_cases h12 : c = '©'
  · subst h12; decide
  by_cases h13 : c = '®'
  · subst h13; decide
  by_cases h14 : c = '™'
  · subst h14; decide
  by_cases h15 : c = '°'
  · subst h15; decide
  simp [charEntity, isAmpCh, isDquoteCh, isSquoteCh, isNbspCh, isNdashCh,
    isMdashCh, isCopyCh, isRegCh, isTradeCh, isDegCh,
    h1, h2, h3, h4, h5, h6, h7, h8, h9, h10, h11, h12, h13, h14, h15]

theorem filter_angle_entityExpand (l : List Char) :
    (entityExpand l).filter angleCh = l.filter angleCh := by
  induction l with
  | nil => rfl
  | cons c t ih =>
      by_cases ha : angleCh c = true <;>
        simp [entityExpand, List.filter_append, ih, filter_angle_charEntity c,
          List.filter_cons, ha]

/-- C6: symbol normalization escapes the ampersand before every other
substitution, so it coincides with a single pass through the escaping table,
in which the entity text introduced for a character is inserted verbatim and
never re-escaped; in particular the scenario input with straight double
quotes and an ampersand renders as the expected entity text. -/
theorem claim_C6_normalize_table :
    (∀ s : String, normalize_symbols s = String.mk (entityExpand s.data))
    ∧ normalize_symbols ("He said " ++ dq ++ "hi" ++ dq ++ " & left.")
        = "He said &quot;hi&quot; &amp; left." := by
  constructor
  · intro s
    exact str_ext (normalize_symbols_data s)
  · decide

/-- C7 counterexample: the code is not idempotent on already-escaped text;
normalizing the ampersand gives its entity, and normalizing that entity
escapes its ampersand again, changing the escaped text. -/
theorem claim_C7_counterexample :
    normalize_symbols "&" = "&amp;"
    ∧ normalize_symbols (normalize_symbols "&") = "&amp;amp;"
    ∧ normalize_symbols (normalize_symbols "&") ≠ normalize_symbols "&" := by
  decide

/-- C7 amended: re-running symbol normalization leaves its output unchanged
exactly when the input was already a fixed point, that is, contained no
character of the escaping table; on any output that contains an escaped
entity a second run re-escapes the ampersand of that entity. -/
theorem claim_C7_idempotent_iff_fixed (s : String) :
    normalize_symbols (normalize_symbols s) = normalize_symbols s
      ↔ normalize_symbols s = s := by
  constructor
  · intro h
    apply str_ext
    rw [normalize_symbols_data]
    by_contra hne
    have hsp : ∃ c ∈ s.data, charEntity c ≠ [c] := by
      by_contra hall
      push_neg at hall
      exact hne (entityExpand_id_of hall)
    obtain ⟨c, hc, hcne⟩ := hsp
    have hamp : '&' ∈ entityExpand s.data :=
      mem_entityExpand_of hc (charEntity_amp_of_ne hcne)
    have hlt : (entityExpand s.data).length
        < (entityExpand (entityExpand s.data)).length :=
      len_lt_entityExpand_of_amp hamp
    have hE : entityExpand (entityExpand s.data) = entityExpand s.data := by
      have := congrArg String.data h
      rwa [normalize_symbols_data, normalize_symbols_data] at this
    rw [hE] at hlt
    exact lt_irrefl _ hlt
  · intro h
    rw [h]
    exact h

/-- C7 witness: on a table-free string the amended equivalence yields
idempotence. -/
theorem claim_C7_witness :
    normalize_symbols (normalize_symbols "abc") = normalize_symbols "abc" :=
  (claim_C7_idempotent_iff_fixed "abc").mpr (by decide)

/-- C10: symbol normalization preserves the literal angle brackets of every
input string, in order and multiplicity, and in particular the inserted
line-break marker text passes through unchanged. -/
theorem claim_C10_angle_preserved :
    (∀ s : String, (normalize_symbols s).data.filter angleCh = s.data.filter angleCh)
    ∧ normalize_symbols "<br></br>\n" = "<br></br>\n" := by
  constructor
  · intro s
    rw [normalize_symbols_data]
    exact filter_angle_entityExpand s.data
  · decide

/-- C5: paragraph style resolution considers only the runs with non-empty
trimmed text; it yields bold exactly when there is such a run and all of them
are bold, italic exactly when all are italic but not all bold, and normal
otherwise, in particular when no run qualifies; the result is always one of
the three styles. -/
theorem claim_C5_style_resolution (runs : List Run) :
    (get_paragraph_font_style runs = "bold"
      ∨ get_paragraph_font_style runs = "italic"
      ∨ get_paragraph_font_style runs = "normal")
    ∧ (nonEmptyRuns runs = [] → get_paragraph_font_style runs = "normal")
    ∧ (nonEmptyRuns runs ≠ [] →
        ((get_paragraph_font_style runs = "bold"
            ↔ ∀ r ∈ nonEmptyRuns runs, r.bold = true)
        ∧ (get_paragraph_font_style runs = "italic"
            ↔ (∀ r ∈ nonEmptyRuns runs, r.italic = true)
              ∧ ¬(∀ r ∈ nonEmptyRuns runs, r.bold = true))
        ∧ (get_paragraph_font_style runs = "normal"
            ↔ ¬(∀ r ∈ nonEmptyRuns runs, r.bold = true)
              ∧ ¬(∀ r ∈ nonEmptyRuns runs, r.italic = true)))) := by
  by_cases h0 : nonEmptyRuns runs = []
  · have h0' : (runs.filter fun r => !(pyStrip r.text == "")) = [] := h0
    have hsty : get_paragraph_font_style runs = "normal" := by
      simp [get_paragraph_font_style, h0']
    exact ⟨Or.inr (Or.inr hsty), fun _ => hsty, fun hne => absurd h0 hne⟩
  · have hne0 : (runs.filter fun r => !(pyStrip r.text == "")).isEmpty = false := by
      cases hh : (runs.filter fun r => !(pyStrip r.text == "")).isEmpty
      · rfl
      · exact absurd (List.isEmpty_iff.mp hh) h0
    by_cases hb :
        (runs.filter fun r => !(pyStrip r.text == "")).all (fun r => r.bold) = true
    · have hsty : get_paragraph_font_style runs = "bold" := by
        simp [get_paragraph_font_style, hne0, hb]
      rw [hsty]
      refine ⟨Or.inl rfl, fun hE => absurd hE h0, fun _ => ⟨?_, ?_, ?_⟩⟩
      · exact ⟨fun _ => fun r hr => List.all_eq_true.mp hb r hr, fun _ => rfl⟩
      · constructor
        · intro h; exact absurd h (by decide)
        · rintro ⟨_, hnb⟩
          exact absurd (fun r hr => List.all_eq_true.mp hb r hr) hnb
      · constructor
        · intro h; exact absurd h (by decide)
        · rintro ⟨hnb, _⟩
          exact absurd (fun r hr => List.all_eq_true.mp hb r hr) hnb
    · by_cases hi :
          (runs.filter fun r => !(pyStrip r.text == "")).all (fun r => r.italic) = true
      · have hsty : get_paragraph_font_style runs = "italic" := by
          simp [get_paragraph_font_style, hne0, hb, hi]
        rw [hsty]
        refine ⟨Or.inr (Or.inl rfl), fun hE => absurd hE h0, fun _ => ⟨?_, ?_, ?_⟩⟩
        · constructor
          · intro h; exact absurd h (by decide)
          · intro hab
            exact absurd (List.all_eq_true.mpr fun r hr => hab r hr) hb
        · constructor
          · intro _
            exact ⟨fun r hr => List.all_eq_true.mp hi r hr,
              fun hab => hb (List.all_eq_true.mpr fun r hr => hab r hr)⟩
          · intro _; rfl
        · constructor
          · intro h; exact absurd h (by decide)
          · rintro ⟨_, hni⟩
            exact absurd (fun r hr => List.all_eq_true.mp hi r hr) hni
      · have hsty : get_paragraph_font_style runs = "normal" := by
          simp [get_paragraph_font_style, hne0, hb, hi]
        rw [hsty]
        refine ⟨Or.inr (Or.inr rfl), fun hE => absurd hE h0, fun _ => ⟨?_, ?_, ?_⟩⟩
        · constructor
          · intro h; exact absurd h (by decide)
          · intro hab
            exact absurd (List.all_eq_true.mpr fun r hr => hab r hr) hb
        · constructor
          · intro h; exact absurd h (by decide)
          · rintro ⟨hai, _⟩
            exact absurd (List.all_eq_true.mpr fun r hr => hai r hr) hi
        · constructor
          · intro _
            exact ⟨fun hab => hb (List.all_eq_true.mpr fun r hr => hab r hr),
              fun hai => hi (List.all_eq_true.mpr fun r hr => hai r hr)⟩
          · intro _; rfl

/-- C5 witness: a single bold run with non-empty text resolves to bold. -/
theorem claim_C5_witness :
    get_paragraph_font_style [{ text := "x", bold := true, italic := false }] = "bold" :=
  ((claim_C5_style_resolution
      [{ text := "x", bold := true, italic := false }]).2.2 (by decide)).1.mpr
    (by decide)

theorem takeDigits_append (d r : List Char) (hd : ∀ c ∈ d, c.isDigit = true) :
    takeDigits d.length (d ++ r) = some r := by
  induction d with
  | nil => rfl
  | cons c t ih =>
      simp only [List.length_cons, List.cons_append, takeDigits, hd c (by simp),
        if_true]
      exact ih fun x hx => hd x (by simp [hx])

theorem takeDigits_some : ∀ {n : Nat} {l r : List Char}, takeDigits n l = some r →
    ∃ d, l = d ++ r ∧ d.length = n ∧ ∀ c ∈ d, c.isDigit = true := by
  intro n
  induction n with
  | zero =>
      intro l r h
      simp only [takeDigits, Option.some.injEq] at h
      exact ⟨[], by simp [h], rfl, by simp⟩
  | succ n ih =>
      intro l r h
      cases l with
      | nil => simp [takeDigits] at h
      | cons c t =>
          simp only [takeDigits] at h
          by_cases hc : c.isDigit = true
          · rw [if_pos hc] at h
            obtain ⟨d, hdt, hlen, hdig⟩ := ih h
            refine ⟨c :: d, by simp [hdt], by simp [hlen], ?_⟩
            intro x hx
            rcases List.mem_cons.mp hx with rfl | hx
            exacts [hc, hdig x hx]
          · rw [if_neg hc] at h; cases h

theorem expectDash_some (l r : List Char) : expectDash l = some r ↔ l = '-' :: r := by
  cases l with
  | nil => simp [expectDash]
  | cons c t =>
      by_cases hc : c = '-'
      · subst hc; simp [expectDash]
      · simp [expectDash, hc]

theorem matchDateFrom_true_iff (k1 k2 k3 : Nat) (l : List Char) :
    matchDateFrom k1 k2 k3 l = true ↔
      ∃ d1 d2 d3 rest : List Char,
        l = d1 ++ '-' :: (d2 ++ '-' :: (d3 ++ rest))
        ∧ d1.length = k1 ∧ (∀ c ∈ d1, c.isDigit = true)
        ∧ d2.length = k2 ∧ (∀ c ∈ d2, c.isDigit = true)
        ∧ d3.length = k3 ∧ (∀ c ∈ d3, c.isDigit = true) := by
  constructor
  · intro h
    unfold matchDateFrom at h
    cases h1 : takeDigits k1 l with
    | none => simp [h1] at h
    | some l1 =>
      simp only [h1] at h
      cases h2 : expectDash l1 with
      | none => simp [h2] at h
      | some l2 =>
        simp only [h2] at h
        cases h3 : takeDigits k2 l2 with
        | none => simp [h3] at h
        | some l3 =>
          simp only [h3] at h
          cases h4 : expectDash l3 with
          | none => simp [h4] at h
          | some l4 =>
            simp only [h4] at h
            obtain ⟨rest, h5⟩ := Option.isSome_iff_exists.mp h
            obtain ⟨d1, hl, hlen1, hd1⟩ := takeDigits_some h1
            obtain ⟨d2, hl2, hlen2, hd2⟩ := takeDigits_some h3
            obtain ⟨d3, hl3, hlen3, hd3⟩ := takeDigits_some h5
            have hdash1 := (expectDash_some l1 l2).mp h2
            have hdash2 := (expectDash_some l3 l4).mp h4
            refine ⟨d1, d2, d3, rest, ?_, hlen1, hd1, hlen2, hd2, hlen3, hd3⟩
            rw [hl, hdash1, hl2, hdash2, hl3]
  · rintro ⟨d1, d2, d3, rest, rfl, rfl, hd1, rfl, hd2, rfl, hd3⟩
    unfold matchDateFrom
    simp [takeDigits_append d1 _ hd1, takeDigits_append d2 _ hd2,
      takeDigits_append d3 _ hd3, expectDash]

theorem matchDateAt_true_iff (l : List Char) :
    matchDateAt l = true ↔
      ∃ d1 d2 d3 rest : List Char,
        l = d1 ++ '-' :: (d2 ++ '-' :: (d3 ++ rest))
        ∧ 1 ≤ d1.length ∧ d1.length ≤ 2 ∧ (∀ c ∈ d1, c.isDigit = true)
        ∧ 1 ≤ d2.length ∧ d2.length ≤ 2 ∧ (∀ c ∈ d2, c.isDigit = true)
        ∧ 2 ≤ d3.length ∧ d3.length ≤ 4 ∧ (∀ c ∈ d3, c.isDigit = true) := by
  unfold matchDateAt
  simp only [List.any_eq_true, List.mem_cons, List.not_mem_nil, or_false]
  constructor
  · rintro ⟨k1, hk1, k2, hk2, k3, hk3, hm⟩
    obtain ⟨d1, d2, d3, rest, heq, hlen1, hd1, hlen2, hd2, hlen3, hd3⟩ :=
      (matchDateFrom_true_iff k1 k2 k3 l).mp hm
    exact ⟨d1, d2, d3, rest, heq, by omega, by omega, hd1, by omega, by omega,
      hd2, by omega, by omega, hd3⟩
  · rintro ⟨d1, d2, d3, rest, heq, h11, h12, hd1, h21, h22, hd2, h31, h32, hd3⟩
    refine ⟨d1.length, by omega, d2.length, by omega, d3.length, by omega, ?_⟩
    exact (matchDateFrom_true_iff _ _ _ l).mpr
      ⟨d1, d2, d3, rest, heq, rfl, hd1, rfl, hd2, rfl, hd3⟩

theorem dateSearch_true_iff (l : List Char) :
    dateSearch l = true ↔ ∃ u v, l = u ++ v ∧ matchDateAt v = true := by
  induction l with
  | nil =>
      constructor
      · intro h; cases h
      · rintro ⟨u, v, huv, hm⟩
        obtain ⟨hu, hv⟩ := List.append_eq_nil.mp huv.symm
        subst hv
        exact absurd hm (by decide)
  | cons c t ih =>
      simp only [dateSearch, Bool.or_eq_true, ih]
      constructor
      · rintro (hm | ⟨u, v, huv, hv⟩)
        · exact ⟨[], c :: t, rfl, hm⟩
        · exact ⟨c :: u, v, by simp [huv], hv⟩
      · rintro ⟨u, v, huv, hv⟩
        cases u with
        | nil =>
            left
            simp only [List.nil_append] at huv
            rwa [huv]
        | cons a u2 =>
            right
            simp only [List.cons_append, List.cons.injEq] at huv
            exact ⟨u2, v, huv.2, hv⟩

theorem hasDateMatch_iff (s : String) : hasDateMatch s = true ↔ DateMatch s := by
  unfold hasDateMatch DateMatch
  rw [dateSearch_true_iff]
  constructor
  · rintro ⟨u, v, huv, hv⟩
    obtain ⟨d1, d2, d3, rest, heq, h11, h12, hd1, h21, h22, hd2, h31, h32, hd3⟩ :=
      (matchDateAt_true_iff v).mp hv
    exact ⟨u, d1, d2, d3, rest, by rw [huv, heq]; simp [List.append_assoc],
      h11, h12, hd1, h21, h22, hd2, h31, h32, hd3⟩
  · rintro ⟨u, d1, d2, d3, v, heq, h11, h12, hd1, h21, h22, hd2, h31, h32, hd3⟩
    refine ⟨u, d1 ++ '-' :: (d2 ++ '-' :: (d3 ++ v)),
      by simpa [List.append_assoc] using heq, ?_⟩
    exact (matchDateAt_true_iff _).mpr
      ⟨d1, d2, d3, v, rfl, h11, h12, hd1, h21, h22, hd2, h31, h32, hd3⟩

theorem stripFind_found (pre : List Paragraph) (p : Paragraph) (post : List Paragraph)
    (hpre : ∀ q ∈ pre, q.is_empty = true ∨ hasDateMatch q.text = false)
    (hp : p.is_empty = false) (hm : hasDateMatch p.text = true) :
    stripFind (pre ++ p :: post) = some post := by
  induction pre with
  | nil => simp [stripFind, hp, hm]
  | cons q t ih =>
      have hcond : (!q.is_empty && hasDateMatch q.text) = false := by
        rcases hpre q (by simp) with h | h <;> simp [h]
      simp only [List.cons_append, stripFind, hcond]
      simp only [Bool.false_eq_true, if_false]
      exact ih fun x hx => hpre x (by simp [hx])

theorem stripFind_none (content : List Paragraph)
    (h : ∀ q ∈ content, q.is_empty = true ∨ hasDateMatch q.text = false) :
    stripFind content = none := by
  induction content with
  | nil => rfl
  | cons q t ih =>
      have hcond : (!q.is_empty && hasDateMatch q.text) = false := by
        rcases h q (by simp) with hh | hh <;> simp [hh]
      simp only [stripFind, hcond]
      simp only [Bool.false_eq_true, if_false]
      exact ih fun x hx => h x (by simp [hx])

/-- C2: preamble stripping returns exactly the paragraphs strictly after the
first non-empty paragraph whose text contains a date-pattern match, returns
the input unchanged when no non-empty paragraph matches, and the boolean
date test of the code holds exactly when the text decomposes as one or two
digits, a dash, one or two digits, a dash and two to four digits. -/
theorem claim_C2_strip_preamble :
    (∀ (pre : List Paragraph) (p : Paragraph) (post : List Paragraph),
        (∀ q ∈ pre, q.is_empty = true ∨ hasDateMatch q.text = false) →
        p.is_empty = false → hasDateMatch p.text = true →
        strip_content_before_date (pre ++ p :: post) = post)
    ∧ (∀ content : List Paragraph,
        (∀ q ∈ content, q.is_empty = true ∨ hasDateMatch q.text = false) →
        strip_content_before_date content = content)
    ∧ (∀ s : String, hasDateMatch s = true ↔ DateMatch s) := by
  refine ⟨?_, ?_, hasDateMatch_iff⟩
  · intro pre p post hpre hp hm
    unfold strip_content_before_date
    rw [stripFind_found pre p post hpre hp hm]
  · intro content h
    unfold strip_content_before_date
    rw [stripFind_none content h]

/-- C2 witness: scenario A, where the date paragraph 7-1-24 is preceded by a
title and an empty paragraph, strips everything up to and including the date
paragraph. -/
theorem claim_C2_witness :
    strip_content_before_date
      [⟨"left", [⟨"Title", false, false⟩], "Title", false⟩,
       ⟨"left", [], "", true⟩,
       ⟨"left", [⟨"7-1-24", false, false⟩], "7-1-24", false⟩,
       ⟨"left", [], "", true⟩,
       ⟨"left", [⟨"Hello world.", false, false⟩], "Hello world.", false⟩]
      = [⟨"left", [], "", true⟩,
         ⟨"left", [⟨"Hello world.", false, false⟩], "Hello world.", false⟩] :=
  claim_C2_strip_preamble.1
    [⟨"left", [⟨"Title", false, false⟩], "Title", false⟩, ⟨"left", [], "", true⟩]
    ⟨"left", [⟨"7-1-24", false, false⟩], "7-1-24", false⟩
    [⟨"left", [], "", true⟩,
     ⟨"left", [⟨"Hello world.", false, false⟩], "Hello world.", false⟩]
    (by decide) (by decide) (by decide)

theorem hasSeparatingEmpty_eq_false : ∀ l : List Paragraph,
    (∀ x ∈ triples l,
      ¬(x.1.is_empty = false ∧ x.2.1.is_empty = true ∧ x.2.2.is_empty = false)) →
    hasSeparatingEmpty l = false
  | [], _ => rfl
  | [_], _ => rfl
  | [_, _], _ => rfl
  | a :: b :: c :: t, h => by
      have h0 := h (a, b, c) (by simp [triples])
      have hrec := hasSeparatingEmpty_eq_false (b :: c :: t)
        (fun x hx => h x (by simp [triples]; right; exact hx))
      simp only [hasSeparatingEmpty, hrec, Bool.or_false]
      cases ha : a.is_empty <;> cases hb : b.is_empty <;> cases hc : c.is_empty <;>
        simp_all

/-- C3: when no interior empty paragraph has non-empty paragraphs as both
immediate neighbours, grouping returns its input unchanged. -/
theorem claim_C3_group_noop (content : List Paragraph)
    (h : ∀ x ∈ triples content,
      ¬(x.1.is_empty = false ∧ x.2.1.is_empty = true ∧ x.2.2.is_empty = false)) :
    group_consecutive_paragraphs content = content := by
  simp [group_consecutive_paragraphs, hasSeparatingEmpty_eq_false content h]

/-- C3 witness: a document whose empty paragraphs sit in a block of two has
no separator pattern, so grouping leaves it untouched. -/
theorem claim_C3_witness :
    group_consecutive_paragraphs
      [⟨"left", [⟨"A", false, false⟩], "A", false⟩,
       ⟨"left", [], "", true⟩,
       ⟨"left", [], "", true⟩,
       ⟨"left", [⟨"B", false, false⟩], "B", false⟩]
      = [⟨"left", [⟨"A", false, false⟩], "A", false⟩,
         ⟨"left", [], "", true⟩,
         ⟨"left", [], "", true⟩,
         ⟨"left", [⟨"B", false, false⟩], "B", false⟩] :=
  claim_C3_group_noop _ (by decide)

theorem groupLoop_eq_splitBlocks (l : List Paragraph) :
    groupLoop l = (splitBlocks l).map mergeBlock := by
  induction l using groupLoop.induct with
  | case1 => simp [groupLoop, splitBlocks]
  | case2 p rest hp ih => simp [groupLoop, splitBlocks, hp, ih]
  | case3 p rest hp ih => simp [groupLoop, splitBlocks, hp, ih, mergeBlock]

/-- C4: when the separator pattern is detected, grouping maps each maximal
block of consecutive non-empty paragraphs, in input order, to one merged
paragraph that takes the alignment of the first member, concatenates the
member runs with a break-marker run between consecutive members, trims the
run texts of every member after the first, and is never empty; empty
paragraphs are dropped. -/
theorem claim_C4_grouping (content : List Paragraph)
    (h : hasSeparatingEmpty content = true) :
    group_consecutive_paragraphs content = (splitBlocks content).map mergeBlock
    ∧ ∀ q ∈ group_consecutive_paragraphs content, q.is_empty = false := by
  have heq : group_consecutive_paragraphs content
      = (splitBlocks content).map mergeBlock := by
    simp [group_consecutive_paragraphs, h, groupLoop_eq_splitBlocks]
  refine ⟨heq, ?_⟩
  rw [heq]
  intro q hq
  obtain ⟨blk, _, rfl⟩ := List.mem_map.mp hq
  cases blk <;> rfl

/-- C4 witness: two adjacent non-empty paragraphs followed by a separator and
a third paragraph trigger grouping and merge into two blocks. -/
theorem claim_C4_witness :
    group_consecutive_paragraphs
      [⟨"left", [⟨"Line one. ", false, false⟩], "Line one. ", false⟩,
       ⟨"left", [⟨" Line two.", false, false⟩], " Line two.", false⟩,
       ⟨"left", [], "", true⟩,
       ⟨"center", [⟨"C", true, false⟩], "C", false⟩]
      = (splitBlocks
          [⟨"left", [⟨"Line one. ", false, false⟩], "Line one. ", false⟩,
           ⟨"left", [⟨" Line two.", false, false⟩], " Line two.", false⟩,
           ⟨"left", [], "", true⟩,
           ⟨"center", [⟨"C", true, false⟩], "C", false⟩]).map mergeBlock :=
  (claim_C4_grouping _ (by decide)).1

theorem mergeParts_eq_chunks : ∀ l : List PRun, (∀ q ∈ l, q.text ≠ "<br></br>") →
    mergeParts l = (chunkFlags l).map wrapChunk := by
  intro l
  induction l using mergeParts.induct with
  | case1 => intro _; simp [mergeParts, chunkFlags]
  | case2 r rest hguard ih =>
      intro h
      exact absurd (by simpa using hguard) (h r (by simp))
  | case3 r rest hguard ih =>
      intro h
      have hrest : ∀ q ∈ rest.dropWhile (fun q => sameFlags q r),
          q.text ≠ "<br></br>" := by
        intro q hq
        apply h
        have hqr : q ∈ rest := by
          rw [← List.takeWhile_append_dropWhile (p := fun q => sameFlags q r)
            (l := rest)]
          exact List.mem_append.mpr (Or.inr hq)
        simp [hqr]
      simp [mergeParts, chunkFlags, hguard, ih hrest, wrapChunk, concatAll]

/-- C8 counterexample: a run whose normalized text is exactly the break marker
without newline starts a maximal block with needs_bold true, yet the rendered
output wraps it in no bold tag pair, against the claim that every maximal
block is wrapped once per needed style. -/
theorem claim_C8_counterexample :
    process_paragraph_text
        [⟨"<br></br>", true, false⟩, ⟨"x", false, false⟩] = "<br></br>x"
    ∧ (toPRun (get_paragraph_font_style
          [⟨"<br></br>", true, false⟩, ⟨"x", false, false⟩])
        ⟨"<br></br>", true, false⟩).needs_bold = true
    ∧ containsSub "<b>".toList "<br></br>x".toList = false := by
  refine ⟨?_, by decide, by decide⟩
  simp [process_paragraph_text, mergeParts, toPRun, get_paragraph_font_style,
    pyStrip, stripChars, normalize_symbols, wrapFlags, sameFlags, concatAll]
  decide

/-- C8 amended: provided no run normalizes to the exact break-marker text,
rendering concatenates every maximal block of adjacent runs with identical
needs flags, computed as run italic and style not italic and run bold and
style not bold, and wraps each block by exactly one tag pair per needed style
of its first member; scenario E, two bold runs in a bold paragraph, renders
as plain concatenation with no bold tag. A run that does normalize to the
break-marker text is emitted bare whenever it starts a block. -/
theorem claim_C8_merge_blocks (runs : List Run)
    (h : ∀ r ∈ runs, normalize_symbols r.text ≠ "<br></br>") :
    process_paragraph_text runs
      = concatAll
          ((chunkFlags (runs.map (toPRun (get_paragraph_font_style runs)))).map
            wrapChunk)
    ∧ process_paragraph_text [⟨"A", true, false⟩, ⟨"B", true, false⟩] = "AB" := by
  constructor
  · unfold process_paragraph_text
    congr 1
    apply mergeParts_eq_chunks
    intro q hq
    obtain ⟨r, hr, rfl⟩ := List.mem_map.mp hq
    exact h r hr
  · simp [process_paragraph_text, mergeParts, toPRun, get_paragraph_font_style,
      pyStrip, stripChars, normalize_symbols, wrapFlags, sameFlags, concatAll]
    decide

/-- C8 witness: scenario E rendered through the amended theorem. -/
theorem claim_C8_witness :
    process_paragraph_text [⟨"A", true, false⟩, ⟨"B", true, false⟩] = "AB" :=
  (claim_C8_merge_blocks [⟨"A", true, false⟩, ⟨"B", true, false⟩] (by decide)).2

theorem isSubstr_appendL (n x h : String) : IsSubstr n h → IsSubstr n (x ++ h)
  | ⟨u, v, huv⟩ => ⟨x ++ u, v, by rw [huv]; simp [String.append_assoc]⟩

theorem isSubstr_appendR (n h x : String) : IsSubstr n h → IsSubstr n (h ++ x)
  | ⟨u, v, huv⟩ => ⟨u, v ++ x, by rw [huv]; simp [String.append_assoc]⟩

theorem isSubstr_headPlus (n x : String) : IsSubstr n (n ++ x) :=
  ⟨"", x, str_ext (by simp [String.data_append])⟩

theorem isSubstr_concat_mem : ∀ (l : List PRun) (q : PRun), q ∈ l →
    IsSubstr q.text (concatAll (l.map PRun.text)) := by
  intro l
  induction l with
  | nil => intro q hq; cases hq
  | cons a t ih =>
      intro q hq
      rcases List.mem_cons.mp hq with rfl | hq
      · exact isSubstr_headPlus _ _
      · exact isSubstr_appendL _ _ _ (ih q hq)

theorem isSubstr_wrapFlags (n t : String) (i b : Bool) (h : IsSubstr n t) :
    IsSubstr n (wrapFlags i b t) := by
  cases i <;> cases b
  · simpa [wrapFlags] using h
  · simpa [wrapFlags] using isSubstr_appendR _ _ _ (isSubstr_appendL _ _ _ h)
  · simpa [wrapFlags] using isSubstr_appendR _ _ _ (isSubstr_appendL _ _ _ h)
  · simpa [wrapFlags] using isSubstr_appendR _ _ _ (isSubstr_appendL _ _ _
      (isSubstr_appendR _ _ _ (isSubstr_appendL _ _ _ h)))

theorem mergeParts_substr : ∀ (l : List PRun) (q : PRun), q ∈ l →
    IsSubstr q.text (concatAll (mergeParts l)) := by
  intro l
  induction l using mergeParts.induct with
  | case1 => intro q hq; cases hq
  | case2 r rest hguard ih =>
      intro q hq
      have hme : mergeParts (r :: rest) = r.text :: mergeParts rest := by
        simp [mergeParts, hguard]
      rw [hme]
      rcases List.mem_cons.mp hq with rfl | hq
      · exact isSubstr_headPlus _ _
      · exact isSubstr_appendL _ _ _ (ih q hq)
  | case3 r rest hguard ih =>
      intro q hq
      have hme : mergeParts (r :: rest)
          = wrapFlags r.needs_italic r.needs_bold
              (r.text
                ++ concatAll ((rest.takeWhile fun x => sameFlags x r).map PRun.text))
            :: mergeParts (rest.dropWhile fun x => sameFlags x r) := by
        simp [mergeParts, hguard]
      rw [hme]
      rcases List.mem_cons.mp hq with rfl | hq
      · exact isSubstr_appendR _ _ _
          (isSubstr_wrapFlags _ _ _ _ (isSubstr_headPlus _ _))
      · have hsp : q ∈ (rest.takeWhile fun x => sameFlags x r)
            ++ (rest.dropWhile fun x => sameFlags x r) := by
          rw [List.takeWhile_append_dropWhile]
          exact hq
        rcases List.mem_append.mp hsp with htk | hdr
        · exact isSubstr_appendR _ _ _
            (isSubstr_wrapFlags _ _ _ _
              (isSubstr_appendL _ _ _ (isSubstr_concat_mem _ q htk)))
        · exact isSubstr_appendL _ _ _ (ih q hdr)

/-- C9 counterexample: the break marker inserted by the grouper carries a
trailing newline, so the merge guard, which compares with the marker text
without newline, does not fire; between two plain runs the marker is
concatenated with both neighbours into a single merged part. -/
theorem claim_C9_counterexample :
    mergeParts
        (([⟨"a", false, false⟩, breakRun, ⟨"b", false, false⟩] : List Run).map
          (toPRun (get_paragraph_font_style
            [⟨"a", false, false⟩, breakRun, ⟨"b", false, false⟩])))
      = ["a<br></br>\nb"]
    ∧ process_paragraph_text [⟨"a", false, false⟩, breakRun, ⟨"b", false, false⟩]
      = "a<br></br>\nb" := by
  constructor <;>
    simp [process_paragraph_text, mergeParts, toPRun, get_paragraph_font_style,
      pyStrip, stripChars, normalize_symbols, wrapFlags, sameFlags, concatAll,
      breakRun] <;>
    decide

/-- C9 amended: the break marker run inserted by the grouper can be
concatenated with flag-matching neighbours, since the never-merge guard tests
the marker text without its trailing newline; nevertheless the marker text
always appears unchanged, as a contiguous substring, in the rendered output
of any paragraph that contains the marker run. -/
theorem claim_C9_break_marker (runs : List Run) (h : breakRun ∈ runs) :
    IsSubstr "<br></br>\n" (process_paragraph_text runs) := by
  unfold process_paragraph_text
  have hm : toPRun (get_paragraph_font_style runs) breakRun
      ∈ runs.map (toPRun (get_paragraph_font_style runs)) :=
    List.mem_map_of_mem _ h
  have hsub := mergeParts_substr _ _ hm
  have htext : (toPRun (get_paragraph_font_style runs) breakRun).text
      = "<br></br>\n" := rfl
  rwa [htext] at hsub

/-- C9 witness: the marker between two plain runs still appears verbatim in
the rendered output. -/
theorem claim_C9_witness :
    IsSubstr "<br></br>\n"
      (process_paragraph_text [⟨"a", false, false⟩, breakRun, ⟨"b", false, false⟩]) :=
  claim_C9_break_marker _ (by decide)

/-- C1 counterexample: with an invalid output path the conversion raises, but
only as the fourth stage, after the document has been read, stripped and
grouped, so validation does not happen before the file is read; moreover the
extension check is substring containment, so the non-txt extension .txtx is
accepted and the conversion completes. -/
theorem claim_C1_counterexample :
    (convert_docx_pipeline [] (some "result.html")).1
      = [ConvEvent.readInput, ConvEvent.stripStage, ConvEvent.groupStage,
         ConvEvent.invalidOutputError]
    ∧ (convert_docx_pipeline [] (some "result.html")).1.head?
        = some ConvEvent.readInput
    ∧ pathSuffix "file.txtx" = ".txtx"
    ∧ ((convert_docx_pipeline [] (some "file.txtx")).2).isSome = true := by
  refine ⟨?_, ?_, by decide, ?_⟩ <;> decide

/-- C1 amended: the output-path check runs after the document is read,
preamble-stripped and grouped, but before rendering and writing; a path whose
lowercased pathlib suffix does not contain .txt as a substring raises
ValueError at that point and nothing is rendered or written, while a path
whose lowercased suffix is exactly .txt is never rejected and the conversion
renders and writes. -/
theorem claim_C1_output_validation (doc : List Paragraph) (p : String) :
    (invalidOutputPath p = true →
      (convert_docx_pipeline doc (some p)).1
        = [ConvEvent.readInput, ConvEvent.stripStage, ConvEvent.groupStage,
           ConvEvent.invalidOutputError]
      ∧ (convert_docx_pipeline doc (some p)).2 = none)
    ∧ (pyLower (pathSuffix p) = ".txt" →
      (convert_docx_pipeline doc (some p)).1
        = [ConvEvent.readInput, ConvEvent.stripStage, ConvEvent.groupStage,
           ConvEvent.renderStage, ConvEvent.writeOutput]
      ∧ ((convert_docx_pipeline doc (some p)).2).isSome = true) := by
  constructor
  · intro h
    simp [convert_docx_pipeline, h]
  · intro h
    have hv : invalidOutputPath p = false := by
      unfold invalidOutputPath
      rw [h]
      decide
    simp [convert_docx_pipeline, hv]

/-- C1 witness: a pdf output path is rejected right after the grouping stage,
with nothing rendered. -/
theorem claim_C1_witness :
    (convert_docx_pipeline [] (some "out.pdf")).1
      = [ConvEvent.readInput, ConvEvent.stripStage, ConvEvent.groupStage,
         ConvEvent.invalidOutputError]
    ∧ (convert_docx_pipeline [] (some "out.pdf")).2 = none :=
  (claim_C1_output_validation [] "out.pdf").1 (by decide)

end FileUtilities
